import Mathlib

/-!
# A shallow embedding of the knut journal processing engine

This file embeds, in Lean 4, the parts of the knut plain-text accounting
engine that the verification claims are about:

* the booking engine of the `balance` package (`Balance.bookAmount`,
  `Accounts.Open` / `Accounts.Close` / `Accounts.IsOpen`, `Balance.Copy`,
  `Balance.Minus`, `Diffs`);
* the valuation subsystem (`Valuator.computeValuationTransactions`,
  `Valuator.processValuationTransactions2`, and the `Valuate` price lookup);
* the directive sorter (`Sorter.Finalize` over the day-bucketed AST);
* the transaction printer (`Printer.printTransaction`).

Go maps are embedded as association lists (`AMap`), with lookup defaulting
to zero exactly as Go map reads of `decimal.Decimal` do.  Decimal
quantities are embedded as rationals.  Fallible Go functions return
`Except`; the one place where the engine deliberately panics is embedded
with an explicit `POutcome.panicked` constructor so that crashing and
failing with an error remain distinguishable.
-/

namespace Knut

/-- The five account types of the ledger model. -/
inductive AccountType
  | assets
  | liabilities
  | equity
  | income
  | expenses
deriving DecidableEq, Repr

/-- An interned account: the registry issues one canonical value per name,
so structural equality of (type, name) mirrors Go pointer equality. -/
structure Account where
  atype : AccountType
  name : String
deriving DecidableEq, Repr

/-- An interned commodity, identified by its ticker. -/
abbrev Commodity := String

/-- A calendar date, as a day number; `time.Time` values compare by `Before`. -/
abbrev Date := Nat

/-- A position key, mirroring `CommodityAccount{Account, Commodity}`. -/
abbrev Posn := Account × Commodity

/-- A Go `map[CommodityAccount]decimal.Decimal`, embedded as an association
list.  Go guarantees unique keys; theorems that need that fact take a
`(mkeys m).Nodup` hypothesis. -/
abbrev AMap := List (Posn × ℚ)

/-- Reading a Go map of decimals: a missing key reads as zero. -/
def mlookup : AMap → Posn → ℚ
  | [], _ => 0
  | e :: m, k => if e.1 = k then e.2 else mlookup m k

/-- Writing a Go map: replace the binding if the key is present, insert
otherwise. -/
def mupd : AMap → Posn → ℚ → AMap
  | [], k, v => [(k, v)]
  | e :: m, k, v => if e.1 = k then (k, v) :: m else e :: mupd m k v

/-- The key set of an embedded map. -/
def mkeys (m : AMap) : List Posn := m.map Prod.fst

/-- The set of opened accounts, mirroring `Accounts map[*ledger.Account]bool`
(only `true` values are ever stored, so the map is a set). -/
abbrev OpenAccounts := List Account

/-- Membership test `oa[a]` on the open-account set. -/
def memAcc : OpenAccounts → Account → Bool
  | [], _ => false
  | b :: oa, a => if b = a then true else memAcc oa a

/-- Removal `delete(oa, a)` from the open-account set. -/
def removeAcc : OpenAccounts → Account → OpenAccounts
  | [], _ => []
  | b :: oa, a => if b = a then removeAcc oa a else b :: removeAcc oa a

/-- `Accounts.Open`: fails if the account is already open, records it
otherwise. -/
def openAccount (oa : OpenAccounts) (a : Account) : Except String OpenAccounts :=
  if memAcc oa a then .error ("account " ++ a.name ++ " is already open")
  else .ok (a :: oa)

/-- `Accounts.Close`: fails with an "already closed" error if the account is
not in the set, deletes it otherwise. -/
def closeAccount (oa : OpenAccounts) (a : Account) : Except String OpenAccounts :=
  if !(memAcc oa a) then .error ("account " ++ a.name ++ " is already closed")
  else .ok (removeAcc oa a)

/-- `Accounts.IsOpen`: an account is open if it is in the set, or if it is
an equity account (equity accounts are implicitly always open). -/
def isOpen (oa : OpenAccounts) (a : Account) : Bool :=
  if memAcc oa a then true
  else decide (a.atype = AccountType.equity)

/-- A posting of the `ledger` package: a credit/debit pair moving one
commodity. -/
structure KPosting where
  credit : Account
  debit : Account
  commodity : Commodity
  amount : ℚ
deriving DecidableEq, Repr

/-- A transaction of the `ledger` package. -/
structure KTransaction where
  date : Date
  description : String
  postings : List KPosting
deriving DecidableEq, Repr

/-- The booking state of the `balance` package: amounts, values and the
open-account set (date, context and prices are irrelevant to the claims). -/
structure KBalance where
  amounts : AMap
  values : AMap
  accounts : OpenAccounts
deriving DecidableEq, Repr

/-- The posting loop of `Balance.bookAmount`: check that credit and debit
are open, then subtract the amount at the credit position and add it at
the debit position. -/
def bookAmountGo (oa : OpenAccounts) : AMap → List KPosting → Except String AMap
  | amounts, [] => .ok amounts
  | amounts, p :: ps =>
    if !(isOpen oa p.credit) then
      .error ("credit account " ++ p.credit.name ++ " is not open")
    else if !(isOpen oa p.debit) then
      .error ("debit account " ++ p.debit.name ++ " is not open")
    else
      let crPos : Posn := (p.credit, p.commodity)
      let drPos : Posn := (p.debit, p.commodity)
      let a1 := mupd amounts crPos (mlookup amounts crPos - p.amount)
      let a2 := mupd a1 drPos (mlookup a1 drPos + p.amount)
      bookAmountGo oa a2 ps

/-- `Balance.bookAmount`: book all postings of a transaction against the
amounts map. -/
def bookAmount (b : KBalance) (t : KTransaction) : Except String KBalance :=
  (bookAmountGo b.accounts b.amounts t.postings).map
    (fun am => { b with amounts := am })

/-- The net effect of one posting on one position: its amount is added at
the debit position and subtracted at the credit position. -/
def postingDelta (p : KPosting) (k : Posn) : ℚ :=
  (if (p.debit, p.commodity) = k then p.amount else 0)
    - (if (p.credit, p.commodity) = k then p.amount else 0)

/-- Whether some amounts entry for the account holds a nonzero balance. -/
def hasNonzeroBalance (m : AMap) (a : Account) : Bool :=
  m.any (fun e => decide (e.1.1 = a) && decide (e.2 ≠ 0))

/-- Modelled from the spec: the `AccountCloser` pipeline step of the
balance package is not among the available sources.  Per the spec, close
"requires zero balance across all commodities for that account, else
fails; otherwise removes from open set"; removal goes through the
in-source `Accounts.Close`. -/
def accountCloserStep (b : KBalance) (a : Account) : Except String KBalance :=
  if hasNonzeroBalance b.amounts a then
    .error ("account " ++ a.name ++ " has a nonzero balance")
  else
    (closeAccount b.accounts a).map (fun oa => { b with accounts := oa })

/-- The example accounts and transaction of the spec: a 10.00 USD grocery
purchase, credited to `Assets:Cash` and debited to `Expenses:Food`. -/
def cashAcc : Account := { atype := AccountType.assets, name := "Assets:Cash" }

/-- The expense account of the spec example. -/
def foodAcc : Account := { atype := AccountType.expenses, name := "Expenses:Food" }

/-- A sample equity account; equity accounts are implicitly always open. -/
def retainedAcc : Account := { atype := AccountType.equity, name := "Equity:Retained" }

/-- The spec's example transaction: credit `Assets:Cash`, debit
`Expenses:Food`, 10.00 USD. -/
def exampleTrx : KTransaction :=
  { date := 0
    description := "groceries"
    postings := [{ credit := cashAcc, debit := foodAcc, commodity := "USD", amount := 10 }] }

/-- The map-copy loop of `Balance.Copy`: every entry of the source is
inserted into a fresh empty map. -/
def mcopy (m : AMap) : AMap := m.foldl (fun acc e => mupd acc e.1 e.2) []

/-- The map loop of `Balance.Minus`: for every entry of the subtrahend,
subtract its value at its key in the receiver. -/
def mminus (b bo : AMap) : AMap :=
  bo.foldl (fun acc e => mupd acc e.1 (mlookup acc e.1 - e.2)) b

/-- `Balance.Copy`: deep-copies the amounts, values and open-account set. -/
def balCopy (b : KBalance) : KBalance :=
  { amounts := mcopy b.amounts, values := mcopy b.values, accounts := b.accounts }

/-- `Balance.Minus`: subtracts the other balance's amounts and values
entries from the receiver. -/
def balMinus (b bo : KBalance) : KBalance :=
  { b with amounts := mminus b.amounts bo.amounts
           values := mminus b.values bo.values }

instance : Inhabited KBalance :=
  ⟨{ amounts := [], values := [], accounts := [] }⟩

/-- Indexed read on a slice (out-of-range reads return the default value;
the embedded loops only read in range). -/
def lget {α : Type} [Inhabited α] : List α → Nat → α
  | [], _ => default
  | b :: _, 0 => b
  | _ :: l, n + 1 => lget l n

/-- Indexed write on a slice (out-of-range writes are dropped; the
embedded loops only write in range). -/
def lset {α : Type} : List α → Nat → α → List α
  | [], _, _ => []
  | _ :: l, 0, v => v :: l
  | b :: l, n + 1, v => b :: lset l n v

/-- The in-place loop of `Diffs`: `for i := len(bals)-1; i > 0; i--`
replaces `bals[i]` by `bals[i].Minus(bals[i-1])`, visiting indices from
the top down so each subtrahend is still the original balance. -/
def diffsLoop : List KBalance → Nat → List KBalance
  | l, 0 => l
  | l, i + 1 => diffsLoop (lset l (i + 1) (balMinus (lget l (i + 1)) (lget l i))) i

/-- `Diffs`: difference the slice of balances in place, then return the
slice with its first element dropped. -/
def Diffs (bals : List KBalance) : List KBalance :=
  (diffsLoop bals (bals.length - 1)).drop 1

/-- A per-day normalized price graph: rate edges between commodities,
the valuation target and the day the snapshot belongs to. -/
structure NormalizedPrices where
  date : Date
  valuation : Commodity
  edges : List (Commodity × Commodity × ℚ)
deriving DecidableEq, Repr

/-- A posting of the `ast` package (with valuation targets). -/
structure APosting where
  credit : Account
  debit : Account
  commodity : Commodity
  amount : ℚ
  targets : List Commodity
deriving DecidableEq, Repr

/-- A transaction of the `ast` package. -/
structure ATransaction where
  date : Date
  description : String
  postings : List APosting
deriving DecidableEq, Repr

/-- An `ast.Day` as seen by the valuator and differ stages: date, booked
amounts, valuated values, the day's transactions and the day's
normalized price graph. -/
structure ADay where
  date : Date
  amounts : AMap
  value : AMap
  transactions : List ATransaction
  normalized : NormalizedPrices
deriving DecidableEq, Repr

instance : Inhabited ADay :=
  ⟨{ date := 0, amounts := [], value := [], transactions := [],
     normalized := { date := 0, valuation := "", edges := [] } }⟩

/-- The streaming loop of `Differ.Process2`: each incoming day's value map
is replaced by `d.Value.Clone().Minus(prev)` where `prev` starts as the
nil map and is then the previous day's (undiffed) value map. -/
def differProcess2Go : AMap → List ADay → List ADay
  | _, [] => []
  | prev, d :: rest =>
    { d with value := mminus (mcopy d.value) prev } :: differProcess2Go d.value rest

/-- `Differ.Process2`: pass days through unchanged when diffing is off,
else run the diffing loop starting from an empty previous map. -/
def differProcess2 (diff : Bool) (days : List ADay) : List ADay :=
  if !diff then days else differProcess2Go [] days

/-- The sample price snapshot of the diff counterexample. -/
def sampleNP : NormalizedPrices := { date := 0, valuation := "CHF", edges := [] }

/-- A one-snapshot input for the streaming differ. -/
def sampleDay : ADay :=
  { date := 1, amounts := [], value := [((cashAcc, "USD"), 5)],
    transactions := [], normalized := sampleNP }

/-- An `ast.Open` directive. -/
structure KOpen where
  date : Date
  account : Account
deriving DecidableEq, Repr

/-- An `ast.Price` directive. -/
structure KPrice where
  date : Date
  commodity : Commodity
  price : ℚ
  target : Commodity
deriving DecidableEq, Repr

/-- An `ast.Value` directive. -/
structure KValue where
  date : Date
  account : Account
  commodity : Commodity
  amount : ℚ
deriving DecidableEq, Repr

/-- An `ast.Assertion` directive. -/
structure KAssertion where
  date : Date
  account : Account
  amount : ℚ
  commodity : Commodity
deriving DecidableEq, Repr

/-- An `ast.Close` directive. -/
structure KClose where
  date : Date
  account : Account
deriving DecidableEq, Repr

/-- The closed tagged variant of directives the sorter dispatches on. -/
inductive Directive
  | dopen : KOpen → Directive
  | dprice : KPrice → Directive
  | dtrx : ATransaction → Directive
  | dvalue : KValue → Directive
  | dassertion : KAssertion → Directive
  | dclose : KClose → Directive
deriving DecidableEq, Repr

/-- The date a directive carries. -/
def Directive.date : Directive → Date
  | .dopen o => o.date
  | .dprice p => p.date
  | .dtrx t => t.date
  | .dvalue v => v.date
  | .dassertion a => a.date
  | .dclose c => c.date

/-- An `ast.Day` as the sorter sees it: the directives of one date, split
by kind. -/
structure SDay where
  date : Date
  openings : List KOpen
  prices : List KPrice
  transactions : List ATransaction
  values : List KValue
  assertions : List KAssertion
  closings : List KClose
deriving DecidableEq, Repr

/-- A fresh day node for a date. -/
def emptyDay (d : Date) : SDay :=
  { date := d, openings := [], prices := [], transactions := [],
    values := [], assertions := [], closings := [] }

/-- `AST.Day(d)` get-or-create followed by a mutation: apply `f` to the
day stored under `d`, creating the day first when missing. -/
def addToDay : List SDay → Date → (SDay → SDay) → List SDay
  | [], d, f => [f (emptyDay d)]
  | day :: rest, d, f =>
    if day.date = d then f day :: rest else day :: addToDay rest d f

/-- `Sorter.Process`: dispatch one directive to its day bucket
(`AddOpen`, `AddPrice`, ..., each appending to the bucket for the
directive's own date). -/
def addDirective (days : List SDay) : Directive → List SDay
  | .dopen o =>
    addToDay days o.date (fun day => { day with openings := day.openings ++ [o] })
  | .dprice p =>
    addToDay days p.date (fun day => { day with prices := day.prices ++ [p] })
  | .dtrx t =>
    addToDay days t.date (fun day => { day with transactions := day.transactions ++ [t] })
  | .dvalue v =>
    addToDay days v.date (fun day => { day with values := day.values ++ [v] })
  | .dassertion a =>
    addToDay days a.date (fun day => { day with assertions := day.assertions ++ [a] })
  | .dclose c =>
    addToDay days c.date (fun day => { day with closings := day.closings ++ [c] })

/-- Feeding a parsed directive stream through `Sorter.Process`. -/
def buildAST (ds : List Directive) : List SDay := ds.foldl addDirective []

/-- Day ordering by date. -/
def dayLe (a b : SDay) : Prop := a.date ≤ b.date

instance : DecidableRel dayLe := fun a b => inferInstanceAs (Decidable (a.date ≤ b.date))

instance : IsTotal SDay dayLe := ⟨fun a b => Nat.le_total a.date b.date⟩

instance : IsTrans SDay dayLe := ⟨fun _ _ _ => Nat.le_trans⟩

/-- `AST.SortedDays`.  Modelled from the spec: the `ast` package source is
not available; per the spec the days form a date-keyed mapping
"materialized as an ascending sequence". -/
def sortedDays (days : List SDay) : List SDay := List.insertionSort dayLe days

/-- One day's directives in the order `Sorter.Finalize` emits them:
openings, prices, transactions, values, assertions, closings. -/
def dayDirectives (day : SDay) : List Directive :=
  day.openings.map Directive.dopen ++ day.prices.map Directive.dprice
    ++ day.transactions.map Directive.dtrx ++ day.values.map Directive.dvalue
    ++ day.assertions.map Directive.dassertion ++ day.closings.map Directive.dclose

/-- `Sorter.Finalize`: emit the sorted days, each flattened into its six
directive groups in emission order. -/
def sorterFinalize (days : List SDay) : List Directive :=
  ((sortedDays days).map dayDirectives).flatten

/-- The same-day type priority the spec claims (price before open). -/
def claimedPrio : Directive → Nat
  | .dprice _ => 0
  | .dopen _ => 1
  | .dtrx _ => 2
  | .dvalue _ => 3
  | .dassertion _ => 4
  | .dclose _ => 5

/-- The same-day type priority `Sorter.Finalize` actually uses (open
before price). -/
def emitPrio : Directive → Nat
  | .dopen _ => 0
  | .dprice _ => 1
  | .dtrx _ => 2
  | .dvalue _ => 3
  | .dassertion _ => 4
  | .dclose _ => 5

/-- Emission order: ascending date, then the given same-day priority. -/
def dirLe (p : Directive → Nat) (a b : Directive) : Prop :=
  a.date < b.date ∨ (a.date = b.date ∧ p a ≤ p b)

instance (p : Directive → Nat) (a b : Directive) : Decidable (dirLe p a b) :=
  inferInstanceAs (Decidable (a.date < b.date ∨ (a.date = b.date ∧ p a ≤ p b)))

/-- All directives bucketed into a day carry that day's date. -/
def DayWF (day : SDay) : Prop :=
  (∀ o ∈ day.openings, o.date = day.date) ∧ (∀ p ∈ day.prices, p.date = day.date)
    ∧ (∀ t ∈ day.transactions, t.date = day.date) ∧ (∀ v ∈ day.values, v.date = day.date)
    ∧ (∀ a ∈ day.assertions, a.date = day.date) ∧ (∀ c ∈ day.closings, c.date = day.date)

/-- The number of directives a day emits. -/
def dayLen (day : SDay) : Nat := (dayDirectives day).length

/-- The number of directives an AST emits. -/
def totalLen (days : List SDay) : Nat := (days.map dayLen).sum

/-- A posting of the printer's `model` package: each credit/debit pair is
stored as two mirrored entries, `Account` being the booked side and
`Other` the counterparty. -/
structure MPosting where
  account : Account
  other : Account
  commodity : Commodity
  amount : ℚ
deriving DecidableEq, Repr

/-- A transaction of the printer's `model` package (`Targets` may be nil). -/
structure MTransaction where
  date : Date
  description : String
  targets : Option (List Commodity)
  postings : List MPosting
deriving DecidableEq, Repr

/-- One output line of `printTransaction`, abstracted from padding and
number formatting: the optional performance line, the header, or one
posting line. -/
inductive PLine
  | performance (targets : List Commodity)
  | header (date : Date) (description : String)
  | posting (p : MPosting)
deriving DecidableEq, Repr

/-- Whether a printed line is a posting line. -/
def isPostingLine : PLine → Bool
  | .posting _ => true
  | _ => false

/-- The posting loop of `printTransaction`: `for i, po := range postings`,
skipping every even index `i` and printing a line for every odd one. -/
def postingLines : Nat → List MPosting → List PLine
  | _, [] => []
  | i, p :: ps =>
    if i % 2 == 0 then postingLines (i + 1) ps
    else PLine.posting p :: postingLines (i + 1) ps

/-- `Printer.printTransaction`: the optional `@performance` line, the
date-and-description header, then the posting lines. -/
def printTransaction (t : MTransaction) : List PLine :=
  (match t.targets with
   | some ts => [PLine.performance ts]
   | none => [])
    ++ [PLine.header t.date t.description]
    ++ postingLines 0 t.postings

/-- The error a failed valuation reports: no conversion path for the
commodity on the snapshot's date. -/
inductive ValError
  | noValuationPath (c : Commodity) (d : Date)
deriving DecidableEq, Repr

/-- The path search behind `Valuate`: follow rate edges from `c` towards
`target`, multiplying edge rates along the way, avoiding revisits; fuel
bounds the recursion depth. -/
def searchPath (edges : List (Commodity × Commodity × ℚ)) (target : Commodity) :
    Nat → List Commodity → Commodity → ℚ → Option ℚ
  | 0, _, _, _ => none
  | fuel + 1, visited, c, acc =>
    if c = target then some acc
    else if visited.contains c then none
    else (edges.filter (fun e => e.1 == c)).findSome?
      (fun e => searchPath edges target fuel (c :: visited) e.2.1 (acc * e.2.2))

/-- Modelled from the spec: `NormalizedPrices.Valuate` of the `prices`
package is not among the available sources.  Per the spec it is the
identity at the valuation commodity, otherwise a search over the
adjacency graph for any path to the valuation commodity, multiplying
edge rates along it; no path yields a `NoValuationPathError` naming the
commodity and the date. -/
def valuate (np : NormalizedPrices) (c : Commodity) (q : ℚ) : Except ValError ℚ :=
  if c = np.valuation then .ok q
  else
    match searchPath np.edges np.valuation (np.edges.length + 1) [] c q with
    | some v => .ok v
    | none => .error (ValError.noValuationPath c np.date)

/-- Reachability along the rate edges of a price snapshot. -/
inductive Reaches (edges : List (Commodity × Commodity × ℚ)) : Commodity → Commodity → Prop
  | refl (c : Commodity) : Reaches edges c c
  | step {a b c : Commodity} {r : ℚ} :
      (a, b, r) ∈ edges → Reaches edges b c → Reaches edges a c

/-- An outcome of a function that may panic: Go panics are kept distinct
from returned errors. -/
inductive POutcome (α : Type)
  | ok (a : α)
  | panicked (msg : String)
deriving DecidableEq, Repr

/-- A `val.Day`: the valuated view of a day, with its booked amounts, its
value map, its transactions and the day's price snapshot. -/
structure VDay where
  date : Date
  amounts : AMap
  values : AMap
  transactions : List ATransaction
  prices : NormalizedPrices
deriving DecidableEq, Repr

/-- Modelled from the spec: `amounts.Amounts.Book` of `lib/common/amounts`
is not among the available sources; per the spec's booking rule the
amount is subtracted at the credit position and added at the debit
position. -/
def bookPair (m : AMap) (credit debit : Account) (amt : ℚ) (c : Commodity) : AMap :=
  let m1 := mupd m (credit, c) (mlookup m (credit, c) - amt)
  mupd m1 (debit, c) (mlookup m1 (debit, c) + amt)

/-- The position loop of `Valuator.computeValuationTransactions`: skip
positions in the valuation commodity and positions of accounts other
than assets and liabilities; panic when `Valuate` fails; otherwise, when
the recomputed value drifts from the recorded one, append a same-day
adjustment transaction and book the difference into the values map. -/
def cvtGo (valuation : Commodity) (vaf : Account → Account)
    (np : NormalizedPrices) (d : Date) :
    List (Posn × ℚ) → AMap → List ATransaction → POutcome (AMap × List ATransaction)
  | [], values, trxs => .ok (values, trxs)
  | (pos, va) :: rest, values, trxs =>
    if pos.2 = valuation then cvtGo valuation vaf np d rest values trxs
    else if pos.1.atype ≠ AccountType.assets ∧ pos.1.atype ≠ AccountType.liabilities then
      cvtGo valuation vaf np d rest values trxs
    else
      match valuate np pos.2 va with
      | .error _ => .panicked ("no valuation found for commodity " ++ pos.2)
      | .ok value =>
        let diff := value - mlookup values pos
        if diff = 0 then cvtGo valuation vaf np d rest values trxs
        else
          let credit := vaf pos.1
          let t : ATransaction :=
            { date := d
              description := "Adjust value of " ++ pos.2 ++ " in account " ++ pos.1.name
              postings := [{ credit := credit, debit := pos.1, commodity := pos.2,
                             amount := diff, targets := [pos.2] }] }
          cvtGo valuation vaf np d rest
            (bookPair values credit pos.1 diff pos.2) (trxs ++ [t])

/-- `Valuator.computeValuationTransactions`: a no-op without a valuation
commodity; otherwise run the position loop over the day's amounts,
against the day's prices, values and transactions. -/
def computeValuationTransactions (valuation : Option Commodity)
    (vaf : Account → Account) (day : VDay) : POutcome VDay :=
  match valuation with
  | none => .ok day
  | some v =>
    match cvtGo v vaf day.prices day.date day.amounts day.values day.transactions with
    | .ok (values, trxs) => .ok { day with values := values, transactions := trxs }
    | .panicked msg => .panicked msg

/-- The position loop of `Valuator.processValuationTransactions2`: like
the panicking variant, but failures of `Valuate` are returned as an
error naming the commodity, and the value map is booked before the
adjustment transaction is appended. -/
def pvt2Go (valuation : Option Commodity) (vaf : Account → Account)
    (np : NormalizedPrices) (d : Date) :
    List (Posn × ℚ) → AMap → List ATransaction → Except String (AMap × List ATransaction)
  | [], value, trxs => .ok (value, trxs)
  | (pos, va) :: rest, value, trxs =>
    if some pos.2 = valuation then pvt2Go valuation vaf np d rest value trxs
    else if pos.1.atype ≠ AccountType.assets ∧ pos.1.atype ≠ AccountType.liabilities then
      pvt2Go valuation vaf np d rest value trxs
    else
      match valuate np pos.2 va with
      | .error _ => .error ("no valuation found for commodity " ++ pos.2)
      | .ok value' =>
        let diff := value' - mlookup value pos
        if diff = 0 then pvt2Go valuation vaf np d rest value trxs
        else
          let credit := vaf pos.1
          let t : ATransaction :=
            { date := d
              description := "Adjust value of " ++ pos.2 ++ " in account " ++ pos.1.name
              postings := [{ credit := credit, debit := pos.1, commodity := pos.2,
                             amount := diff, targets := [pos.2] }] }
          pvt2Go valuation vaf np d rest
            (bookPair value credit pos.1 diff pos.2) (trxs ++ [t])

/-- `Valuator.processValuationTransactions2`: run the position loop over
the day's amounts against the day's normalized prices, value map and
transaction list. -/
def processValuationTransactions2 (valuation : Option Commodity)
    (vaf : Account → Account) (d : ADay) : Except String ADay :=
  match pvt2Go valuation vaf d.normalized d.date d.amounts d.value d.transactions with
  | .ok (value, trxs) => .ok { d with value := value, transactions := trxs }
  | .error e => .error e

/-- The adjustment a single position gives rise to, measured against a
fixed recorded value map: `none` for positions in the valuation
commodity, for accounts other than assets and liabilities, for failed
valuations and for zero drift; otherwise the same-day transaction
against the valuation-adjustment account, sized to the drift. -/
def adjustmentFor (valuation : Option Commodity) (vaf : Account → Account)
    (np : NormalizedPrices) (d : Date) (value0 : AMap) (e : Posn × ℚ) :
    Option ATransaction :=
  if some e.1.2 = valuation then none
  else if e.1.1.atype ≠ AccountType.assets ∧ e.1.1.atype ≠ AccountType.liabilities then none
  else
    match valuate np e.1.2 e.2 with
    | .error _ => none
    | .ok v =>
      let diff := v - mlookup value0 e.1
      if diff = 0 then none
      else
        some { date := d
               description := "Adjust value of " ++ e.1.2 ++ " in account " ++ e.1.1.name
               postings := [{ credit := vaf e.1.1, debit := e.1.1, commodity := e.1.2,
                              amount := diff, targets := [e.1.2] }] }

theorem mlookup_mupd_self (m : AMap) (k : Posn) (v : ℚ) :
    mlookup (mupd m k v) k = v := by
  induction m with
  | nil => simp [mupd, mlookup]
  | cons e m ih =>
    by_cases h : e.1 = k
    · simp [mupd, h, mlookup]
    · simp [mupd, h, mlookup, ih]

theorem mlookup_mupd_ne (m : AMap) (k k' : Posn) (v : ℚ) (h : k' ≠ k) :
    mlookup (mupd m k v) k' = mlookup m k' := by
  have hkk : ¬(k = k') := fun he => h he.symm
  induction m with
  | nil => simp [mupd, mlookup, hkk]
  | cons e m ih =>
    by_cases he : e.1 = k
    · subst he
      simp [mupd, mlookup, hkk]
    · simp [mupd, he, mlookup, ih]

theorem mem_mkeys_mupd (m : AMap) (k k' : Posn) (v : ℚ) :
    k' ∈ mkeys (mupd m k v) ↔ k' = k ∨ k' ∈ mkeys m := by
  induction m with
  | nil => simp [mupd, mkeys]
  | cons e m ih =>
    by_cases he : e.1 = k
    · subst he
      simp [mupd, mkeys]
    · simp only [mupd, if_neg he]
      have h1 : mkeys (e :: mupd m k v) = e.1 :: mkeys (mupd m k v) := rfl
      have h2 : mkeys (e :: m) = e.1 :: mkeys m := rfl
      rw [h1, h2]
      simp only [List.mem_cons, ih]
      tauto

theorem nodup_mkeys_mupd (m : AMap) (k : Posn) (v : ℚ)
    (h : (mkeys m).Nodup) : (mkeys (mupd m k v)).Nodup := by
  induction m with
  | nil => simp [mupd, mkeys]
  | cons e m ih =>
    have h2 : mkeys (e :: m) = e.1 :: mkeys m := rfl
    rw [h2, List.nodup_cons] at h
    by_cases he : e.1 = k
    · subst he
      have h3 : mupd (e :: m) e.1 v = (e.1, v) :: m := by simp [mupd]
      have h1 : mkeys ((e.1, v) :: m) = e.1 :: mkeys m := rfl
      rw [h3, h1, List.nodup_cons]
      exact h
    · simp only [mupd, if_neg he]
      have h1 : mkeys (e :: mupd m k v) = e.1 :: mkeys (mupd m k v) := rfl
      rw [h1, List.nodup_cons]
      refine ⟨?_, ih h.2⟩
      intro hmem
      rcases (mem_mkeys_mupd m k e.1 v).1 hmem with h1 | h1
      · exact he h1
      · exact h.1 h1

theorem bookstep_lookup (am : AMap) (p : KPosting) (k : Posn) :
    mlookup
      (mupd (mupd am (p.credit, p.commodity)
              (mlookup am (p.credit, p.commodity) - p.amount))
        (p.debit, p.commodity)
        (mlookup (mupd am (p.credit, p.commodity)
                   (mlookup am (p.credit, p.commodity) - p.amount))
          (p.debit, p.commodity) + p.amount)) k
      = mlookup am k + postingDelta p k := by
  by_cases hkd : k = (p.debit, p.commodity)
  · subst hkd
    rw [mlookup_mupd_self]
    by_cases hkc : ((p.debit, p.commodity) : Posn) = (p.credit, p.commodity)
    · rw [hkc, mlookup_mupd_self]
      simp only [postingDelta, hkc, if_pos rfl]
      ring
    · rw [mlookup_mupd_ne _ _ _ _ hkc]
      have h2 : ¬(((p.credit, p.commodity) : Posn) = (p.debit, p.commodity)) :=
        fun h => hkc (Eq.symm h)
      simp [postingDelta, h2]
  · rw [mlookup_mupd_ne _ _ _ _ hkd]
    by_cases hkc : k = (p.credit, p.commodity)
    · subst hkc
      rw [mlookup_mupd_self]
      have h1 : ¬(((p.debit, p.commodity) : Posn) = (p.credit, p.commodity)) :=
        fun h => hkd (Eq.symm h)
      simp [postingDelta, h1]
      ring
    · rw [mlookup_mupd_ne _ _ _ _ hkc]
      have h1 : ¬(((p.debit, p.commodity) : Posn) = k) := fun h => hkd (Eq.symm h)
      have h2 : ¬(((p.credit, p.commodity) : Posn) = k) := fun h => hkc (Eq.symm h)
      simp only [postingDelta, if_neg h1, if_neg h2]
      ring

theorem bookAmountGo_ok (oa : OpenAccounts) (ps : List KPosting) :
    ∀ am : AMap,
      (∀ p ∈ ps, isOpen oa p.credit = true ∧ isOpen oa p.debit = true) →
      ∃ am', bookAmountGo oa am ps = .ok am' ∧
        ∀ k, mlookup am' k
          = mlookup am k + ((ps.map (fun p => postingDelta p k)).sum) := by
  induction ps with
  | nil =>
    intro am _
    exact ⟨am, rfl, by simp⟩
  | cons p ps ih =>
    intro am h
    have hp := h p (List.mem_cons_self p ps)
    obtain ⟨am', hok, hlook⟩ :=
      ih (mupd (mupd am (p.credit, p.commodity)
                 (mlookup am (p.credit, p.commodity) - p.amount))
           (p.debit, p.commodity)
           (mlookup (mupd am (p.credit, p.commodity)
                      (mlookup am (p.credit, p.commodity) - p.amount))
             (p.debit, p.commodity) + p.amount))
        (fun q hq => h q (List.mem_cons_of_mem p hq))
    refine ⟨am', ?_, ?_⟩
    · simp only [bookAmountGo, hp.1, hp.2, Bool.not_true, Bool.false_eq_true, if_false]
      exact hok
    · intro k
      rw [hlook k, bookstep_lookup]
      simp only [List.map_cons, List.sum_cons]
      ring

/-- Helper: a nonzero lookup exhibits a nonzero entry of the list. -/
theorem exists_entry_of_mlookup_ne_zero (m : AMap) (k : Posn)
    (h : mlookup m k ≠ 0) : ∃ e ∈ m, e.1 = k ∧ e.2 ≠ 0 := by
  induction m with
  | nil => simp [mlookup] at h
  | cons e m ih =>
    by_cases he : e.1 = k
    · simp only [mlookup, if_pos he] at h
      exact ⟨e, List.mem_cons_self e m, he, h⟩
    · simp only [mlookup, if_neg he] at h
      obtain ⟨e', he', hk', hv'⟩ := ih h
      exact ⟨e', List.mem_cons_of_mem e he', hk', hv'⟩

/-- Helper: with unique keys, each entry carries the value `mlookup`
returns at its key. -/
theorem entry_eq_mlookup_of_nodup (m : AMap) (h : (mkeys m).Nodup) :
    ∀ e ∈ m, e.2 = mlookup m e.1 := by
  induction m with
  | nil => simp
  | cons e0 m ih =>
    have h2 : mkeys (e0 :: m) = e0.1 :: mkeys m := rfl
    rw [h2, List.nodup_cons] at h
    intro e he
    rcases List.mem_cons.1 he with he | he
    · subst he
      simp [mlookup]
    · have hne : ¬(e0.1 = e.1) := by
        intro hcontra
        exact h.1 (hcontra ▸ List.mem_map_of_mem Prod.fst he)
      simp only [mlookup, if_neg hne]
      exact ih h.2 e he

/-- Helper: removal really removes the account from the set. -/
theorem memAcc_removeAcc_self (oa : OpenAccounts) (a : Account) :
    memAcc (removeAcc oa a) a = false := by
  induction oa with
  | nil => rfl
  | cons b oa ih =>
    by_cases hb : b = a
    · simp [removeAcc, hb, ih]
    · simp [removeAcc, hb, memAcc, ih]

theorem bookAmountGo_error (oa : OpenAccounts) (ps : List KPosting) :
    ∀ am : AMap,
      (∃ p ∈ ps, isOpen oa p.credit = false ∨ isOpen oa p.debit = false) →
      ∃ e, bookAmountGo oa am ps = .error e := by
  induction ps with
  | nil =>
    rintro am ⟨p, hmem, _⟩
    exact absurd hmem (List.not_mem_nil p)
  | cons p ps ih =>
    rintro am ⟨q, hmem, hbad⟩
    by_cases hc : isOpen oa p.credit = true
    · by_cases hd : isOpen oa p.debit = true
      · rcases List.mem_cons.1 hmem with hq | hq
        · subst hq
          rcases hbad with h | h
          · rw [hc] at h; exact absurd h (by simp)
          · rw [hd] at h; exact absurd h (by simp)
        · obtain ⟨e, he⟩ :=
            ih (mupd (mupd am (p.credit, p.commodity)
                       (mlookup am (p.credit, p.commodity) - p.amount))
                 (p.debit, p.commodity)
                 (mlookup (mupd am (p.credit, p.commodity)
                            (mlookup am (p.credit, p.commodity) - p.amount))
                   (p.debit, p.commodity) + p.amount))
              ⟨q, hq, hbad⟩
          refine ⟨e, ?_⟩
          simp only [bookAmountGo, hc, hd, Bool.not_true, Bool.false_eq_true, if_false]
          exact he
      · refine ⟨"debit account " ++ p.debit.name ++ " is not open", ?_⟩
        rw [Bool.not_eq_true] at hd
        simp [bookAmountGo, hc, hd]
    · refine ⟨"credit account " ++ p.credit.name ++ " is not open", ?_⟩
      rw [Bool.not_eq_true] at hc
      simp [bookAmountGo, hc]

/-- **C1** (counterexample).  The claim's example opens only `Assets:Cash`;
booking its transaction then fails the open-account check on the debit
account `Expenses:Food` (an expense account is not implicitly open), so
the amounts never become `-10.00` / `10.00`. -/
theorem c1_example_counterexample :
    bookAmount { amounts := [], values := [], accounts := [cashAcc] } exampleTrx
      = .error ("debit account " ++ foodAcc.name ++ " is not open") := rfl

/-- **C1** (amended).  For every transaction all of whose postings have
open credit and debit accounts, booking succeeds; each posting subtracts
its quantity at the (credit, commodity) position and adds it at the
(debit, commodity) position, and no other amounts entry changes (the new
value at every position is the old value plus the summed posting deltas,
which vanish at untouched positions); values and the open-account set are
untouched.  The spec's 10.00 USD example yields `-10.00` / `10.00` once
`Expenses:Food` is opened as well. -/
theorem c1_bookAmount_correct (b : KBalance) (t : KTransaction)
    (h : ∀ p ∈ t.postings, isOpen b.accounts p.credit = true ∧ isOpen b.accounts p.debit = true) :
    ∃ b', bookAmount b t = .ok b' ∧ b'.values = b.values ∧ b'.accounts = b.accounts ∧
      ∀ k, mlookup b'.amounts k
        = mlookup b.amounts k + ((t.postings.map (fun p => postingDelta p k)).sum) := by
  obtain ⟨am', hok, hl⟩ := bookAmountGo_ok b.accounts t.postings b.amounts h
  exact ⟨{ b with amounts := am' }, by simp [bookAmount, hok, Except.map], rfl, rfl, hl⟩

/-- **C1** witness: with both `Assets:Cash` and `Expenses:Food` open, the
example booking yields `-10.00` at `(Assets:Cash, USD)` and `10.00` at
`(Expenses:Food, USD)`. -/
theorem c1_bookAmount_correct_witness :
    ∃ b', bookAmount { amounts := [], values := [], accounts := [foodAcc, cashAcc] } exampleTrx
        = .ok b' ∧
      mlookup b'.amounts (cashAcc, "USD") = -10 ∧
      mlookup b'.amounts (foodAcc, "USD") = 10 := by
  obtain ⟨b', hok, _, _, hl⟩ :=
    c1_bookAmount_correct { amounts := [], values := [], accounts := [foodAcc, cashAcc] }
      exampleTrx (by decide)
  refine ⟨b', hok, ?_, ?_⟩
  · rw [hl (cashAcc, "USD")]
    norm_num [mlookup, postingDelta, exampleTrx, cashAcc, foodAcc]
    decide
  · rw [hl (foodAcc, "USD")]
    norm_num [mlookup, postingDelta, exampleTrx, cashAcc, foodAcc]
    decide

/-- **C2**.  Booking a transaction fails when some posting's credit or
debit account fails the open-account check, and the open-account check
always accepts equity accounts, opened or not. -/
theorem c2_open_check (b : KBalance) (t : KTransaction) (a : Account) :
    ((∃ p ∈ t.postings,
        isOpen b.accounts p.credit = false ∨ isOpen b.accounts p.debit = false) →
      ∃ e, bookAmount b t = .error e)
    ∧ (a.atype = AccountType.equity → isOpen b.accounts a = true) := by
  constructor
  · intro hex
    obtain ⟨e, he⟩ := bookAmountGo_error b.accounts t.postings b.amounts hex
    exact ⟨e, by simp [bookAmount, he, Except.map]⟩
  · intro h
    simp [isOpen, h]

/-- **C2** witness: with no account opened, booking the example
transaction fails, while the never-opened equity account passes the
open-account check. -/
theorem c2_open_check_witness :
    (∃ e, bookAmount { amounts := [], values := [], accounts := [] } exampleTrx = .error e)
    ∧ isOpen ({ amounts := [], values := [], accounts := [] } : KBalance).accounts retainedAcc
        = true := by
  refine ⟨(c2_open_check _ exampleTrx retainedAcc).1 ?_,
    (c2_open_check { amounts := [], values := [], accounts := [] } exampleTrx retainedAcc).2
      rfl⟩
  exact ⟨{ credit := cashAcc, debit := foodAcc, commodity := "USD", amount := 10 },
    by decide, Or.inl (by decide)⟩

/-- **C3** (spec-modelled `AccountCloser`).  Closing an account with some
nonzero balance fails; closing an open account whose balances are all
zero succeeds and removes it from the open-account set. -/
theorem c3_close_requires_zero (b : KBalance) (a : Account) :
    ((∃ c : Commodity, mlookup b.amounts (a, c) ≠ 0) →
      ∃ e, accountCloserStep b a = .error e)
    ∧ ((mkeys b.amounts).Nodup → (∀ c : Commodity, mlookup b.amounts (a, c) = 0) →
        memAcc b.accounts a = true →
        ∃ oa, accountCloserStep b a = .ok { b with accounts := oa } ∧
          memAcc oa a = false) := by
  constructor
  · rintro ⟨c, hc⟩
    obtain ⟨e, hmem, hk, hv⟩ := exists_entry_of_mlookup_ne_zero b.amounts (a, c) hc
    have hnz : hasNonzeroBalance b.amounts a = true := by
      apply List.any_eq_true.2
      refine ⟨e, hmem, ?_⟩
      have h1 : e.1.1 = a := by rw [hk]
      simp [h1, hv]
    exact ⟨"account " ++ a.name ++ " has a nonzero balance",
      by simp [accountCloserStep, hnz]⟩
  · intro hnd hzero hopen
    have hnz : hasNonzeroBalance b.amounts a = false := by
      rw [← Bool.not_eq_true]
      intro hany
      obtain ⟨e, hmem, hcond⟩ := List.any_eq_true.1 hany
      rw [Bool.and_eq_true, decide_eq_true_eq, decide_eq_true_eq] at hcond
      have hval := entry_eq_mlookup_of_nodup b.amounts hnd e hmem
      have hkey : e.1 = (a, e.1.2) := by rw [← hcond.1]
      apply hcond.2
      rw [hval, hkey, hzero e.1.2]
    refine ⟨removeAcc b.accounts a, ?_, memAcc_removeAcc_self _ _⟩
    simp [accountCloserStep, hnz, closeAccount, hopen, Except.map]

/-- **C3** witness: closing `Assets:Cash` with a `10.00` USD balance fails,
while closing it with all balances zero succeeds and removes it. -/
theorem c3_close_requires_zero_witness :
    (∃ e, accountCloserStep
        { amounts := [((cashAcc, "USD"), 10)], values := [], accounts := [cashAcc] }
        cashAcc = .error e)
    ∧ (∃ oa, accountCloserStep { amounts := [], values := [], accounts := [cashAcc] } cashAcc
          = .ok { amounts := [], values := [], accounts := oa } ∧
        memAcc oa cashAcc = false) := by
  refine ⟨(c3_close_requires_zero
      { amounts := [((cashAcc, "USD"), 10)], values := [], accounts := [cashAcc] }
      cashAcc).1 ⟨"USD", by decide⟩,
    (c3_close_requires_zero { amounts := [], values := [], accounts := [cashAcc] }
      cashAcc).2 (by decide) (fun c => rfl) (by decide)⟩

/-- **C10**.  For an equity account absent from the open-account set,
`Accounts.IsOpen` reports it open while `Accounts.Close` rejects it as
already closed: the two operations disagree on implicitly-open equity
accounts. -/
theorem c10_equity_close_disagrees (oa : OpenAccounts) (a : Account)
    (hmem : memAcc oa a = false) (heq : a.atype = AccountType.equity) :
    isOpen oa a = true ∧
      closeAccount oa a = .error ("account " ++ a.name ++ " is already closed") := by
  constructor
  · simp [isOpen, hmem, heq]
  · simp [closeAccount, hmem]

/-- **C10** witness: the never-opened `Equity:Retained` account is open per
`IsOpen` and already closed per `Close`. -/
theorem c10_equity_close_disagrees_witness :
    isOpen [] retainedAcc = true ∧
      closeAccount [] retainedAcc
        = .error ("account " ++ retainedAcc.name ++ " is already closed") :=
  c10_equity_close_disagrees [] retainedAcc rfl rfl

theorem mlookup_eq_zero_of_not_mem (m : AMap) (k : Posn) (h : k ∉ mkeys m) :
    mlookup m k = 0 := by
  induction m with
  | nil => rfl
  | cons e m ih =>
    have h2 : mkeys (e :: m) = e.1 :: mkeys m := rfl
    rw [h2, List.mem_cons] at h
    push_neg at h
    simp only [mlookup, if_neg (fun he => h.1 (Eq.symm he))]
    exact ih h.2

theorem mlookup_foldl_mupd (m : AMap) :
    (mkeys m).Nodup → ∀ (acc : AMap) (k : Posn),
      mlookup (m.foldl (fun acc e => mupd acc e.1 e.2) acc) k
        = if k ∈ mkeys m then mlookup m k else mlookup acc k := by
  induction m with
  | nil => intro _ acc k; simp [mkeys]
  | cons e m ih =>
    intro hnd acc k
    have h2 : mkeys (e :: m) = e.1 :: mkeys m := rfl
    rw [h2, List.nodup_cons] at hnd
    rw [List.foldl_cons, ih hnd.2 (mupd acc e.1 e.2) k]
    by_cases hm : k ∈ mkeys m
    · rw [if_pos hm, if_pos (by rw [h2]; exact List.mem_cons_of_mem _ hm)]
      have hne : ¬(e.1 = k) := fun he => hnd.1 (he ▸ hm)
      simp only [mlookup, if_neg hne]
    · rw [if_neg hm]
      by_cases hk : k = e.1
      · subst hk
        rw [if_pos (by rw [h2]; exact List.mem_cons_self _ _), mlookup_mupd_self]
        simp [mlookup]
      · rw [mlookup_mupd_ne _ _ _ _ hk, if_neg ?hnotmem]
        case hnotmem =>
          rw [h2, List.mem_cons]
          push_neg
          exact ⟨hk, hm⟩

theorem mlookup_mcopy (m : AMap) (hnd : (mkeys m).Nodup) (k : Posn) :
    mlookup (mcopy m) k = mlookup m k := by
  rw [mcopy, mlookup_foldl_mupd m hnd [] k]
  by_cases hm : k ∈ mkeys m
  · rw [if_pos hm]
  · rw [if_neg hm]
    exact (mlookup_eq_zero_of_not_mem m k hm).symm

theorem mlookup_mminus (bo : AMap) (hnd : (mkeys bo).Nodup) :
    ∀ (b : AMap) (k : Posn),
      mlookup (mminus b bo) k = mlookup b k - mlookup bo k := by
  induction bo with
  | nil =>
    intro b k
    simp [mminus, mlookup]
  | cons e bo ih =>
    intro b k
    have h2 : mkeys (e :: bo) = e.1 :: mkeys bo := rfl
    rw [h2, List.nodup_cons] at hnd
    have hstep : mminus b (e :: bo)
        = mminus (mupd b e.1 (mlookup b e.1 - e.2)) bo := rfl
    rw [hstep, ih hnd.2 (mupd b e.1 (mlookup b e.1 - e.2)) k]
    by_cases hk : k = e.1
    · subst hk
      rw [mlookup_mupd_self, mlookup_eq_zero_of_not_mem bo _ hnd.1]
      simp [mlookup]
    · rw [mlookup_mupd_ne _ _ _ _ hk]
      have hne : ¬(e.1 = k) := fun he => hk he.symm
      simp only [mlookup, if_neg hne]

/-- **C8**.  Copying a balance and subtracting the original yields the
zero mapping at every position (in particular at every key present in
either operand), for both the amounts and the values maps; the copy
itself agrees with the original everywhere (the embedding is pure, so
the original is never mutated). -/
theorem c8_copy_minus_zero (b : KBalance)
    (hA : (mkeys b.amounts).Nodup) (hV : (mkeys b.values).Nodup) :
    (∀ k, mlookup (balMinus (balCopy b) b).amounts k = 0)
    ∧ (∀ k, mlookup (balMinus (balCopy b) b).values k = 0)
    ∧ (∀ k, mlookup (balCopy b).amounts k = mlookup b.amounts k)
    ∧ (∀ k, mlookup (balCopy b).values k = mlookup b.values k) := by
  refine ⟨fun k => ?_, fun k => ?_, fun k => mlookup_mcopy _ hA k,
    fun k => mlookup_mcopy _ hV k⟩
  · show mlookup (mminus (mcopy b.amounts) b.amounts) k = 0
    rw [mlookup_mminus b.amounts hA (mcopy b.amounts) k, mlookup_mcopy _ hA k]
    ring
  · show mlookup (mminus (mcopy b.values) b.values) k = 0
    rw [mlookup_mminus b.values hV (mcopy b.values) k, mlookup_mcopy _ hV k]
    ring

/-- **C8** witness: a concrete two-entry balance, checked at a present key. -/
theorem c8_copy_minus_zero_witness :
    mlookup (balMinus
        (balCopy { amounts := [((cashAcc, "USD"), 10), ((foodAcc, "CHF"), 3)],
                   values := [((cashAcc, "USD"), 7)], accounts := [cashAcc] })
        { amounts := [((cashAcc, "USD"), 10), ((foodAcc, "CHF"), 3)],
          values := [((cashAcc, "USD"), 7)], accounts := [cashAcc] }).amounts
      (cashAcc, "USD") = 0 :=
  (c8_copy_minus_zero
    { amounts := [((cashAcc, "USD"), 10), ((foodAcc, "CHF"), 3)],
      values := [((cashAcc, "USD"), 7)], accounts := [cashAcc] }
    (by decide) (by decide)).1 (cashAcc, "USD")

theorem length_lset {α : Type} (l : List α) (n : Nat) (v : α) :
    (lset l n v).length = l.length := by
  induction l generalizing n with
  | nil => rfl
  | cons b l ih =>
    cases n with
    | zero => rfl
    | succ n => simp [lset, ih]

theorem lget_lset_self {α : Type} [Inhabited α] (l : List α) (n : Nat) (v : α)
    (h : n < l.length) : lget (lset l n v) n = v := by
  induction l generalizing n with
  | nil => simp at h
  | cons b l ih =>
    cases n with
    | zero => rfl
    | succ n =>
      simp only [List.length_cons, Nat.succ_lt_succ_iff] at h
      simpa [lset, lget] using ih n h

theorem lget_lset_ne {α : Type} [Inhabited α] (l : List α) (n m : Nat) (v : α)
    (h : m ≠ n) : lget (lset l n v) m = lget l m := by
  induction l generalizing n m with
  | nil => rfl
  | cons b l ih =>
    cases n with
    | zero =>
      cases m with
      | zero => exact absurd rfl h
      | succ m => rfl
    | succ n =>
      cases m with
      | zero => rfl
      | succ m =>
        simpa [lset, lget] using ih n m (fun he => h (by rw [he]))

theorem length_diffsLoop (i : Nat) : ∀ l : List KBalance,
    (diffsLoop l i).length = l.length := by
  induction i with
  | zero => intro l; rfl
  | succ i ih =>
    intro l
    rw [diffsLoop, ih, length_lset]

theorem lget_diffsLoop_gt (i : Nat) : ∀ (l : List KBalance) (j : Nat), i < j →
    lget (diffsLoop l i) j = lget l j := by
  induction i with
  | zero => intro l j _; rfl
  | succ i ih =>
    intro l j hij
    rw [diffsLoop, ih _ _ (Nat.lt_of_succ_lt hij),
      lget_lset_ne _ _ _ _ (fun he => by omega)]

theorem lget_diffsLoop_le (i : Nat) : ∀ (l : List KBalance) (j : Nat),
    i < l.length → j ≤ i →
    lget (diffsLoop l i) j
      = if j = 0 then lget l 0 else balMinus (lget l j) (lget l (j - 1)) := by
  induction i with
  | zero =>
    intro l j _ hj
    have : j = 0 := Nat.le_zero.1 hj
    subst this
    rfl
  | succ i ih =>
    intro l j hi hj
    rw [diffsLoop]
    rcases Nat.lt_or_ge j (i + 1) with hlt | hge
    · have hj' : j ≤ i := Nat.lt_succ_iff.1 hlt
      rw [ih _ j (by rw [length_lset]; exact Nat.lt_of_succ_lt hi) hj']
      by_cases hj0 : j = 0
      · subst hj0
        rw [if_pos rfl, if_pos rfl,
          lget_lset_ne _ _ _ _ (fun he => Nat.succ_ne_zero i he.symm)]
      · rw [if_neg hj0, if_neg hj0,
          lget_lset_ne _ _ _ _ (fun he => Nat.lt_irrefl i (by omega)),
          lget_lset_ne _ _ _ _ (fun he => Nat.lt_irrefl i (by omega))]
    · have hj' : j = i + 1 := Nat.le_antisymm hj hge
      subst hj'
      rw [lget_diffsLoop_gt i _ _ (Nat.lt_succ_self i),
        lget_lset_self _ _ _ hi, if_neg (Nat.succ_ne_zero i)]
      simp

theorem lget_drop_one {α : Type} [Inhabited α] (l : List α) (j : Nat) :
    lget (l.drop 1) j = lget l (j + 1) := by
  cases l with
  | nil => rfl
  | cons b l => rfl

theorem length_differProcess2Go (days : List ADay) :
    ∀ prev : AMap, (differProcess2Go prev days).length = days.length := by
  induction days with
  | nil => intro prev; rfl
  | cons d rest ih =>
    intro prev
    simp [differProcess2Go, ih]

theorem lget_differProcess2Go (days : List ADay) :
    ∀ (prev : AMap) (j : Nat), j < days.length →
      lget (differProcess2Go prev days) j
        = { lget days j with
            value := mminus (mcopy (lget days j).value)
              (if j = 0 then prev else (lget days (j - 1)).value) } := by
  induction days with
  | nil =>
    intro prev j h
    simp at h
  | cons d rest ih =>
    intro prev j h
    cases j with
    | zero => rfl
    | succ j =>
      simp only [List.length_cons, Nat.succ_lt_succ_iff] at h
      show lget (differProcess2Go d.value rest) j = _
      rw [ih d.value j h]
      cases j with
      | zero => rfl
      | succ j => rfl

/-- **C4** (counterexample).  In diff mode the streaming `Differ.Process2`
emits one output per input day: a single snapshot yields 1 output, not
`1 - 1 = 0`, so the first snapshot is not dropped there. -/
theorem c4_counterexample :
    (differProcess2 true [sampleDay]).length ≠ [sampleDay].length - 1 := by
  simp [differProcess2, differProcess2Go]

/-- **C4** (amended).  The batch `Diffs` drops the first balance and
returns exactly `N - 1` balances, each the pointwise subtraction (on
amounts and values) of the immediately preceding input from that input;
the streaming `Differ.Process2` instead emits `N` days, the first
carrying the first snapshot's values unchanged and each later one the
pointwise difference from its predecessor. -/
theorem c4_diffs_amended (l : List KBalance) (days : List ADay) :
    (Diffs l).length = l.length - 1
    ∧ (∀ j k, j + 1 < l.length →
        (mkeys (lget l j).amounts).Nodup → (mkeys (lget l j).values).Nodup →
        mlookup (lget (Diffs l) j).amounts k
            = mlookup (lget l (j + 1)).amounts k - mlookup (lget l j).amounts k
          ∧ mlookup (lget (Diffs l) j).values k
            = mlookup (lget l (j + 1)).values k - mlookup (lget l j).values k)
    ∧ (differProcess2 true days).length = days.length
    ∧ (∀ j k, j + 1 < days.length →
        (mkeys (lget days j).value).Nodup → (mkeys (lget days (j + 1)).value).Nodup →
        mlookup (lget (differProcess2 true days) (j + 1)).value k
          = mlookup (lget days (j + 1)).value k - mlookup (lget days j).value k)
    ∧ (∀ k, 0 < days.length → (mkeys (lget days 0).value).Nodup →
        mlookup (lget (differProcess2 true days) 0).value k
          = mlookup (lget days 0).value k) := by
  refine ⟨?_, ?_, ?_, ?_, ?_⟩
  · rw [Diffs, List.length_drop, length_diffsLoop]
  · intro j k hj hndA hndV
    have h0 : 0 < l.length := by omega
    have hchar :
        lget (diffsLoop l (l.length - 1)) (j + 1)
          = balMinus (lget l (j + 1)) (lget l j) := by
      rw [lget_diffsLoop_le (l.length - 1) l (j + 1) (by omega) (by omega),
        if_neg (Nat.succ_ne_zero j)]
      simp
    rw [Diffs, lget_drop_one, hchar]
    exact ⟨mlookup_mminus _ hndA _ k, mlookup_mminus _ hndV _ k⟩
  · rw [differProcess2]
    simp [length_differProcess2Go]
  · intro j k hj hnd hnd'
    rw [differProcess2]
    simp only [Bool.not_true, Bool.false_eq_true, if_false]
    rw [lget_differProcess2Go days [] (j + 1) hj,
      if_neg (Nat.succ_ne_zero j)]
    show mlookup (mminus (mcopy (lget days (j + 1)).value) (lget days (j + 1 - 1)).value) k = _
    rw [show j + 1 - 1 = j from rfl, mlookup_mminus _ hnd _ k, mlookup_mcopy _ hnd' k]
  · intro k h0 hnd
    rw [differProcess2]
    simp only [Bool.not_true, Bool.false_eq_true, if_false]
    rw [lget_differProcess2Go days [] 0 h0, if_pos rfl]
    show mlookup (mminus (mcopy (lget days 0).value) []) k = _
    rw [show mminus (mcopy (lget days 0).value) [] = mcopy (lget days 0).value from rfl,
      mlookup_mcopy _ hnd k]

/-- **C4** witness: two concrete balances, checked on the length and one
pointwise difference, plus the streaming differ on two concrete days. -/
theorem c4_diffs_amended_witness :
    (Diffs [{ amounts := [((cashAcc, "USD"), 4)], values := [], accounts := [] },
            { amounts := [((cashAcc, "USD"), 9)], values := [], accounts := [] }]).length = 1
    ∧ mlookup (lget (Diffs
        [{ amounts := [((cashAcc, "USD"), 4)], values := [], accounts := [] },
         { amounts := [((cashAcc, "USD"), 9)], values := [], accounts := [] }]) 0).amounts
        (cashAcc, "USD") = 9 - 4 := by
  obtain ⟨hlen, hpt, _, _, _⟩ := c4_diffs_amended
    [{ amounts := [((cashAcc, "USD"), 4)], values := [], accounts := [] },
     { amounts := [((cashAcc, "USD"), 9)], values := [], accounts := [] }] []
  refine ⟨hlen, ?_⟩
  have h := (hpt 0 (cashAcc, "USD") (by decide) (by decide) (by decide)).1
  rw [h]
  norm_num [lget, mlookup]

theorem addToDay_pred (P : SDay → Prop) (d : Date) (f : SDay → SDay)
    (hf : ∀ day, P day → day.date = d → P (f day))
    (hempty : P (f (emptyDay d))) :
    ∀ days : List SDay, (∀ day ∈ days, P day) →
      ∀ day ∈ addToDay days d f, P day := by
  intro days
  induction days with
  | nil =>
    intro _ day hday
    rw [addToDay, List.mem_singleton] at hday
    subst hday
    exact hempty
  | cons day0 rest ih =>
    intro hdays day hday
    by_cases hd : day0.date = d
    · rw [addToDay, if_pos hd] at hday
      rcases List.mem_cons.1 hday with h | h
      · subst h
        exact hf day0 (hdays day0 (List.mem_cons_self _ _)) hd
      · exact hdays day (List.mem_cons_of_mem _ h)
    · rw [addToDay, if_neg hd] at hday
      rcases List.mem_cons.1 hday with h | h
      · exact h ▸ hdays day0 (List.mem_cons_self _ _)
      · exact ih (fun x hx => hdays x (List.mem_cons_of_mem _ hx)) day h

theorem map_date_addToDay (d : Date) (f : SDay → SDay)
    (hfd : ∀ day, (f day).date = day.date) :
    ∀ days : List SDay,
      (addToDay days d f).map SDay.date
        = if d ∈ days.map SDay.date then days.map SDay.date
          else days.map SDay.date ++ [d] := by
  intro days
  induction days with
  | nil => simp [addToDay, emptyDay, hfd]
  | cons day0 rest ih =>
    by_cases hd : day0.date = d
    · rw [addToDay, if_pos hd, List.map_cons, List.map_cons, hfd day0,
        if_pos (by rw [List.mem_cons]; exact Or.inl hd.symm)]
    · rw [addToDay, if_neg hd, List.map_cons, List.map_cons, ih]
      by_cases hmem : d ∈ rest.map SDay.date
      · rw [if_pos hmem, if_pos (List.mem_cons_of_mem _ hmem)]
      · rw [if_neg hmem, if_neg ?hno, List.cons_append]
        case hno =>
          intro hc
          rcases List.mem_cons.1 hc with h | h
          · exact hd h.symm
          · exact hmem h

theorem nodup_map_date_addToDay (days : List SDay) (d : Date) (f : SDay → SDay)
    (hfd : ∀ day, (f day).date = day.date)
    (h : (days.map SDay.date).Nodup) :
    ((addToDay days d f).map SDay.date).Nodup := by
  rw [map_date_addToDay d f hfd days]
  by_cases hmem : d ∈ days.map SDay.date
  · rw [if_pos hmem]; exact h
  · rw [if_neg hmem, List.nodup_append]
    exact ⟨h, List.nodup_singleton d,
      fun x hx hxd => hmem ((List.mem_singleton.1 hxd) ▸ hx)⟩

theorem totalLen_addToDay (d : Date) (f : SDay → SDay)
    (hf : ∀ day, dayLen (f day) = dayLen day + 1) :
    ∀ days : List SDay, totalLen (addToDay days d f) = totalLen days + 1 := by
  intro days
  induction days with
  | nil =>
    show totalLen [f (emptyDay d)] = totalLen [] + 1
    have h0 : dayLen (emptyDay d) = 0 := rfl
    simp only [totalLen, List.map_cons, List.map_nil, List.sum_cons, List.sum_nil,
      hf (emptyDay d), h0]
    omega
  | cons day0 rest ih =>
    by_cases hd : day0.date = d
    · rw [addToDay, if_pos hd]
      simp only [totalLen, List.map_cons, List.sum_cons, hf day0]
      simp only [totalLen] at ih ⊢
      omega
    · rw [addToDay, if_neg hd]
      simp only [totalLen, List.map_cons, List.sum_cons] at ih ⊢
      omega

theorem wf_addDirective (acc : List SDay) (dir : Directive)
    (hacc : ∀ day ∈ acc, DayWF day) :
    ∀ day ∈ addDirective acc dir, DayWF day := by
  cases dir with
  | dopen o =>
    refine addToDay_pred DayWF o.date _ ?_ ?_ acc hacc
    · intro day hday hdate
      refine ⟨?_, hday.2.1, hday.2.2.1, hday.2.2.2.1, hday.2.2.2.2.1, hday.2.2.2.2.2⟩
      intro x hx
      rcases List.mem_append.1 hx with h | h
      · exact hday.1 x h
      · rw [List.mem_singleton.1 h]
        exact hdate.symm
    · simp [DayWF, emptyDay]
  | dprice p =>
    refine addToDay_pred DayWF p.date _ ?_ ?_ acc hacc
    · intro day hday hdate
      refine ⟨hday.1, ?_, hday.2.2.1, hday.2.2.2.1, hday.2.2.2.2.1, hday.2.2.2.2.2⟩
      intro x hx
      rcases List.mem_append.1 hx with h | h
      · exact hday.2.1 x h
      · rw [List.mem_singleton.1 h]
        exact hdate.symm
    · simp [DayWF, emptyDay]
  | dtrx t =>
    refine addToDay_pred DayWF t.date _ ?_ ?_ acc hacc
    · intro day hday hdate
      refine ⟨hday.1, hday.2.1, ?_, hday.2.2.2.1, hday.2.2.2.2.1, hday.2.2.2.2.2⟩
      intro x hx
      rcases List.mem_append.1 hx with h | h
      · exact hday.2.2.1 x h
      · rw [List.mem_singleton.1 h]
        exact hdate.symm
    · simp [DayWF, emptyDay]
  | dvalue v =>
    refine addToDay_pred DayWF v.date _ ?_ ?_ acc hacc
    · intro day hday hdate
      refine ⟨hday.1, hday.2.1, hday.2.2.1, ?_, hday.2.2.2.2.1, hday.2.2.2.2.2⟩
      intro x hx
      rcases List.mem_append.1 hx with h | h
      · exact hday.2.2.2.1 x h
      · rw [List.mem_singleton.1 h]
        exact hdate.symm
    · simp [DayWF, emptyDay]
  | dassertion a =>
    refine addToDay_pred DayWF a.date _ ?_ ?_ acc hacc
    · intro day hday hdate
      refine ⟨hday.1, hday.2.1, hday.2.2.1, hday.2.2.2.1, ?_, hday.2.2.2.2.2⟩
      intro x hx
      rcases List.mem_append.1 hx with h | h
      · exact hday.2.2.2.2.1 x h
      · rw [List.mem_singleton.1 h]
        exact hdate.symm
    · simp [DayWF, emptyDay]
  | dclose c =>
    refine addToDay_pred DayWF c.date _ ?_ ?_ acc hacc
    · intro day hday hdate
      refine ⟨hday.1, hday.2.1, hday.2.2.1, hday.2.2.2.1, hday.2.2.2.2.1, ?_⟩
      intro x hx
      rcases List.mem_append.1 hx with h | h
      · exact hday.2.2.2.2.2 x h
      · rw [List.mem_singleton.1 h]
        exact hdate.symm
    · simp [DayWF, emptyDay]

theorem nodup_addDirective (acc : List SDay) (dir : Directive)
    (h : (acc.map SDay.date).Nodup) :
    ((addDirective acc dir).map SDay.date).Nodup := by
  cases dir with
  | dopen o => exact nodup_map_date_addToDay acc o.date _ (fun _ => rfl) h
  | dprice p => exact nodup_map_date_addToDay acc p.date _ (fun _ => rfl) h
  | dtrx t => exact nodup_map_date_addToDay acc t.date _ (fun _ => rfl) h
  | dvalue v => exact nodup_map_date_addToDay acc v.date _ (fun _ => rfl) h
  | dassertion a => exact nodup_map_date_addToDay acc a.date _ (fun _ => rfl) h
  | dclose c => exact nodup_map_date_addToDay acc c.date _ (fun _ => rfl) h

theorem totalLen_addDirective (acc : List SDay) (dir : Directive) :
    totalLen (addDirective acc dir) = totalLen acc + 1 := by
  cases dir with
  | dopen o =>
    exact totalLen_addToDay o.date _
      (fun day => by simp [dayLen, dayDirectives]; omega) acc
  | dprice p =>
    exact totalLen_addToDay p.date _
      (fun day => by simp [dayLen, dayDirectives]; omega) acc
  | dtrx t =>
    exact totalLen_addToDay t.date _
      (fun day => by simp [dayLen, dayDirectives]; omega) acc
  | dvalue v =>
    exact totalLen_addToDay v.date _
      (fun day => by simp [dayLen, dayDirectives]; omega) acc
  | dassertion a =>
    exact totalLen_addToDay a.date _
      (fun day => by simp [dayLen, dayDirectives]; omega) acc
  | dclose c =>
    exact totalLen_addToDay c.date _
      (fun day => by simp [dayLen, dayDirectives]; omega) acc

theorem buildAST_facts (ds : List Directive) :
    ∀ acc : List SDay,
      (∀ day ∈ acc, DayWF day) → ((acc.map SDay.date).Nodup) →
      (∀ day ∈ ds.foldl addDirective acc, DayWF day)
        ∧ ((ds.foldl addDirective acc).map SDay.date).Nodup
        ∧ totalLen (ds.foldl addDirective acc) = totalLen acc + ds.length := by
  induction ds with
  | nil =>
    intro acc hwf hnd
    exact ⟨hwf, hnd, rfl⟩
  | cons dir ds ih =>
    intro acc hwf hnd
    rw [List.foldl_cons]
    obtain ⟨h1, h2, h3⟩ := ih (addDirective acc dir)
      (wf_addDirective acc dir hwf) (nodup_addDirective acc dir hnd)
    refine ⟨h1, h2, ?_⟩
    rw [h3, totalLen_addDirective]
    simp [List.length_cons]
    omega

theorem pairwise_flatten_graded (p : Directive → Nat) (d : Date) :
    ∀ segs : List (Nat × List Directive),
      (∀ s ∈ segs, ∀ x ∈ s.2, Directive.date x = d ∧ p x = s.1) →
      List.Pairwise (· ≤ ·) (segs.map Prod.fst) →
      List.Pairwise (dirLe p) ((segs.map Prod.snd).flatten)
        ∧ ∀ x ∈ (segs.map Prod.snd).flatten,
            Directive.date x = d ∧ ∃ s ∈ segs, p x = s.1 := by
  intro segs
  induction segs with
  | nil =>
    intro _ _
    exact ⟨List.Pairwise.nil, by simp⟩
  | cons s segs ih =>
    intro h hsort
    rw [List.map_cons, List.pairwise_cons] at hsort
    obtain ⟨ihp, ihmem⟩ := ih (fun s' hs' => h s' (List.mem_cons_of_mem _ hs')) hsort.2
    have hs0 := h s (List.mem_cons_self _ _)
    have hflat : ((s :: segs).map Prod.snd).flatten
        = s.2 ++ (segs.map Prod.snd).flatten := by simp
    constructor
    · rw [hflat]
      refine List.pairwise_append.2 ⟨?_, ihp, ?_⟩
      · apply List.pairwise_of_forall_mem_list
        intro x hx y hy
        exact Or.inr ⟨(hs0 x hx).1.trans (hs0 y hy).1.symm,
          by rw [(hs0 x hx).2, (hs0 y hy).2]⟩
      · intro x hx y hy
        obtain ⟨hyd, s', hs', hps'⟩ := ihmem y hy
        have hc : s.1 ≤ s'.1 := hsort.1 s'.1 (List.mem_map_of_mem Prod.fst hs')
        refine Or.inr ⟨(hs0 x hx).1.trans hyd.symm, ?_⟩
        rw [(hs0 x hx).2, hps']
        exact hc
    · rw [hflat]
      intro x hx
      rcases List.mem_append.1 hx with h1 | h1
      · exact ⟨(hs0 x h1).1, s, List.mem_cons_self _ _, (hs0 x h1).2⟩
      · obtain ⟨hd1, s', hs', hp'⟩ := ihmem x h1
        exact ⟨hd1, s', List.mem_cons_of_mem _ hs', hp'⟩

theorem dayDirectives_eq_flatten (day : SDay) :
    dayDirectives day =
      (([(0, day.openings.map Directive.dopen), (1, day.prices.map Directive.dprice),
         (2, day.transactions.map Directive.dtrx), (3, day.values.map Directive.dvalue),
         (4, day.assertions.map Directive.dassertion),
         (5, day.closings.map Directive.dclose)].map Prod.snd).flatten) := by
  simp [dayDirectives]

theorem dayDirectives_pairwise_and_dates (day : SDay) (h : DayWF day) :
    (dayDirectives day).Pairwise (dirLe emitPrio)
      ∧ ∀ x ∈ dayDirectives day, Directive.date x = day.date := by
  have hseg : ∀ s ∈ [(0, day.openings.map Directive.dopen),
      (1, day.prices.map Directive.dprice), (2, day.transactions.map Directive.dtrx),
      (3, day.values.map Directive.dvalue), (4, day.assertions.map Directive.dassertion),
      (5, day.closings.map Directive.dclose)],
      ∀ x ∈ s.2, Directive.date x = day.date ∧ emitPrio x = s.1 := by
    intro s hs x hx
    simp only [List.mem_cons, List.not_mem_nil, or_false] at hs
    rcases hs with rfl | rfl | rfl | rfl | rfl | rfl
    · obtain ⟨o, ho, rfl⟩ := List.mem_map.1 hx
      exact ⟨h.1 o ho, rfl⟩
    · obtain ⟨o, ho, rfl⟩ := List.mem_map.1 hx
      exact ⟨h.2.1 o ho, rfl⟩
    · obtain ⟨o, ho, rfl⟩ := List.mem_map.1 hx
      exact ⟨h.2.2.1 o ho, rfl⟩
    · obtain ⟨o, ho, rfl⟩ := List.mem_map.1 hx
      exact ⟨h.2.2.2.1 o ho, rfl⟩
    · obtain ⟨o, ho, rfl⟩ := List.mem_map.1 hx
      exact ⟨h.2.2.2.2.1 o ho, rfl⟩
    · obtain ⟨o, ho, rfl⟩ := List.mem_map.1 hx
      exact ⟨h.2.2.2.2.2 o ho, rfl⟩
  have hsort : List.Pairwise (· ≤ ·) ([0, 1, 2, 3, 4, 5] : List Nat) := by decide
  obtain ⟨hp, hmem⟩ := pairwise_flatten_graded emitPrio day.date _ hseg hsort
  rw [dayDirectives_eq_flatten]
  exact ⟨hp, fun x hx => (hmem x hx).1⟩

/-- **C7** (counterexample).  With one price and one open directive on the
same date, `Sorter.Finalize` emits the open before the price, so the
emitted sequence is not ordered by the claimed same-day priority (price
first). -/
theorem c7_counterexample :
    ¬ List.Pairwise (dirLe claimedPrio)
      (sorterFinalize (buildAST
        [Directive.dprice { date := 5, commodity := "USD", price := 1, target := "CHF" },
         Directive.dopen { date := 5, account := cashAcc }])) := by
  decide

/-- **C7** (amended).  For every parsed directive stream, the sequence
`Sorter.Finalize` emits is sorted by date, and within one date the
directives appear grouped in the fixed type priority Open, Price,
Transaction, Value, Assertion, Close. -/
theorem c7_sorter_amended (ds : List Directive) :
    List.Pairwise (dirLe emitPrio) (sorterFinalize (buildAST ds)) := by
  obtain ⟨hWF, hnd, _⟩ := buildAST_facts ds [] (by simp) (by simp)
  have hperm : List.Perm (sortedDays (buildAST ds)) (buildAST ds) :=
    List.perm_insertionSort dayLe _
  have hWF' : ∀ day ∈ sortedDays (buildAST ds), DayWF day :=
    fun day hday => hWF day (hperm.mem_iff.1 hday)
  have hnd' : ((sortedDays (buildAST ds)).map SDay.date).Nodup :=
    ((hperm.map SDay.date).nodup_iff).2 hnd
  have hsorted : List.Pairwise dayLe (sortedDays (buildAST ds)) :=
    List.sorted_insertionSort dayLe _
  have hne : List.Pairwise (fun a b : SDay => a.date ≠ b.date)
      (sortedDays (buildAST ds)) := List.pairwise_map.1 hnd'
  have hlt : List.Pairwise (fun a b : SDay => a.date < b.date)
      (sortedDays (buildAST ds)) :=
    (hsorted.and hne).imp (fun hab => Nat.lt_of_le_of_ne hab.1 hab.2)
  rw [sorterFinalize]
  refine List.pairwise_flatten.2 ⟨?_, ?_⟩
  · intro l hl
    obtain ⟨day, hday, rfl⟩ := List.mem_map.1 hl
    exact (dayDirectives_pairwise_and_dates day (hWF' day hday)).1
  · rw [List.pairwise_map]
    refine List.Pairwise.imp_of_mem ?_ hlt
    intro a b ha hb hab x hx y hy
    have hxa := (dayDirectives_pairwise_and_dates a (hWF' a ha)).2 x hx
    have hyb := (dayDirectives_pairwise_and_dates b (hWF' b hb)).2 y hy
    exact Or.inl (by rw [hxa, hyb]; exact hab)

theorem postingLines_eq_enumFrom (ps : List MPosting) :
    ∀ i, postingLines i ps
      = ((List.enumFrom i ps).filter (fun e => e.1 % 2 == 1)).map
          (fun e => PLine.posting e.2) := by
  induction ps with
  | nil => intro i; rfl
  | cons p ps ih =>
    intro i
    rcases Nat.mod_two_eq_zero_or_one i with h | h
    · have h1 : (i % 2 == 0) = true := by simp [h]
      have h2 : (i % 2 == 1) = false := by simp [h]
      simp only [postingLines, h1, if_true, List.enumFrom, List.filter_cons, h2, ih]
      simp
    · have h1 : (i % 2 == 0) = false := by simp [h]
      have h2 : (i % 2 == 1) = true := by simp [h]
      simp only [postingLines, h1, if_false, List.enumFrom, List.filter_cons, h2, ih]
      simp

theorem filter_postingLines (ps : List MPosting) :
    ∀ i, (postingLines i ps).filter isPostingLine = postingLines i ps := by
  induction ps with
  | nil => intro i; rfl
  | cons p ps ih =>
    intro i
    by_cases h : (i % 2 == 0) = true
    · simp only [postingLines, h, if_true, ih]
    · simp only [postingLines, h, if_false, List.filter_cons]
      simp [isPostingLine, ih]

/-- **C9**.  The printer renders exactly the odd-indexed postings of a
transaction as posting lines — one line per stored credit/debit pair —
and a transaction with a single posting prints as a bare header line
with no posting lines. -/
theorem c9_printer_odd_postings (t : MTransaction) :
    (printTransaction t).filter isPostingLine
        = ((List.enumFrom 0 t.postings).filter (fun e => e.1 % 2 == 1)).map
            (fun e => PLine.posting e.2)
      ∧ (t.postings.length = 1 → t.targets = none →
          printTransaction t = [PLine.header t.date t.description]) := by
  constructor
  · rw [printTransaction, List.filter_append, List.filter_append,
      filter_postingLines, postingLines_eq_enumFrom]
    cases t.targets <;> rfl
  · intro hlen htargets
    obtain ⟨p, hp⟩ := List.length_eq_one.1 hlen
    rw [printTransaction, htargets, hp]
    rfl

/-- **C9** witness: a three-posting transaction prints lines for indices
1 only among 0..2, and a one-posting transaction prints only its header. -/
theorem c9_printer_odd_postings_witness :
    (printTransaction
        { date := 3, description := "single", targets := none,
          postings := [{ account := cashAcc, other := foodAcc,
                         commodity := "USD", amount := 10 }] }
      = [PLine.header 3 "single"])
    ∧ (printTransaction
          { date := 4, description := "pair", targets := none,
            postings := [{ account := cashAcc, other := foodAcc,
                           commodity := "USD", amount := 10 },
                         { account := foodAcc, other := cashAcc,
                           commodity := "USD", amount := 10 }] }).filter isPostingLine
        = [PLine.posting { account := foodAcc, other := cashAcc,
                           commodity := "USD", amount := 10 }] := by
  constructor
  · exact (c9_printer_odd_postings _).2 rfl rfl
  · rw [(c9_printer_odd_postings _).1]
    rfl

theorem findSome_exists {α β : Type} (f : α → Option β) :
    ∀ (l : List α) (b : β), l.findSome? f = some b → ∃ a ∈ l, f a = some b := by
  intro l
  induction l with
  | nil => intro b h; simp [List.findSome?] at h
  | cons a l ih =>
    intro b h
    rw [List.findSome?_cons] at h
    cases hfa : f a with
    | some b' =>
      rw [hfa] at h
      exact ⟨a, List.mem_cons_self _ _, hfa.trans h⟩
    | none =>
      rw [hfa] at h
      obtain ⟨a', ha', hfa'⟩ := ih b h
      exact ⟨a', List.mem_cons_of_mem _ ha', hfa'⟩

theorem searchPath_sound (edges : List (Commodity × Commodity × ℚ)) (target : Commodity) :
    ∀ (fuel : Nat) (visited : List Commodity) (c : Commodity) (acc v : ℚ),
      searchPath edges target fuel visited c acc = some v → Reaches edges c target := by
  intro fuel
  induction fuel with
  | zero =>
    intro visited c acc v h
    simp [searchPath] at h
  | succ fuel ih =>
    intro visited c acc v h
    by_cases hc : c = target
    · subst hc
      exact Reaches.refl c
    · rw [searchPath, if_neg hc] at h
      by_cases hv : visited.contains c
      · rw [if_pos hv] at h
        simp at h
      · rw [if_neg hv] at h
        obtain ⟨e, he, hse⟩ := findSome_exists _ _ _ h
        rw [List.mem_filter] at he
        have hec : e.1 = c := by
          have := he.2
          simpa using this
        have hmem : (c, e.2.1, e.2.2) ∈ edges := by
          have : e = (c, e.2.1, e.2.2) := by
            rw [← hec]
          exact this ▸ he.1
        exact Reaches.step hmem (ih (c :: visited) e.2.1 (acc * e.2.2) v hse)

theorem reaches_nil (a b : Commodity) (h : Reaches [] a b) : a = b := by
  cases h with
  | refl => rfl
  | step hmem _ => exact absurd hmem (List.not_mem_nil _)

/-- **C6** (counterexample).  A USD asset position with no conversion path
to the CHF valuation commodity makes `computeValuationTransactions`
panic — a crash, not an error return. -/
theorem c6_counterexample :
    computeValuationTransactions (some "CHF")
      (fun _ => { atype := AccountType.equity, name := "Equity:Valuation" })
      { date := 7, amounts := [((cashAcc, "USD"), 100)], values := [],
        transactions := [],
        prices := { date := 7, valuation := "CHF", edges := [] } }
      = .panicked ("no valuation found for commodity " ++ "USD") := rfl

/-- **C6** (amended).  When no conversion path leads from a commodity to
the valuation commodity, `Valuate` fails with a `NoValuationPathError`
naming the commodity and the date; however the valuation-adjustment step
`computeValuationTransactions` panics (crashes) on such a position
instead of returning that error. -/
theorem c6_no_valuation_path_amended (np : NormalizedPrices) (c : Commodity) (q : ℚ)
    (vaf : Account → Account) (a : Account) (va : ℚ) (vals : AMap)
    (trxs : List ATransaction) (d0 : Date)
    (h : ¬ Reaches np.edges c np.valuation)
    (hat : a.atype = AccountType.assets ∨ a.atype = AccountType.liabilities) :
    valuate np c q = .error (ValError.noValuationPath c np.date)
    ∧ computeValuationTransactions (some np.valuation) vaf
        { date := d0, amounts := [((a, c), va)], values := vals,
          transactions := trxs, prices := np }
      = .panicked ("no valuation found for commodity " ++ c) := by
  have hc : ¬(c = np.valuation) := fun he => h (he ▸ Reaches.refl c)
  have hval : valuate np c va = .error (ValError.noValuationPath c np.date) := by
    rw [valuate, if_neg hc]
    cases hs : searchPath np.edges np.valuation (np.edges.length + 1) [] c va with
    | none => rfl
    | some v => exact absurd (searchPath_sound np.edges np.valuation _ _ _ _ _ hs) h
  have hvalq : valuate np c q = .error (ValError.noValuationPath c np.date) := by
    rw [valuate, if_neg hc]
    cases hs : searchPath np.edges np.valuation (np.edges.length + 1) [] c q with
    | none => rfl
    | some v => exact absurd (searchPath_sound np.edges np.valuation _ _ _ _ _ hs) h
  refine ⟨hvalq, ?_⟩
  rw [computeValuationTransactions]
  have htype : ¬(a.atype ≠ AccountType.assets ∧ a.atype ≠ AccountType.liabilities) := by
    rcases hat with h1 | h1 <;> simp [h1]
  rw [show (cvtGo np.valuation vaf np d0 [((a, c), va)] vals trxs
      : POutcome (AMap × List ATransaction))
      = .panicked ("no valuation found for commodity " ++ c) from ?_]
  · rw [cvtGo, if_neg hc, if_neg htype, hval]

/-- **C6** witness: the concrete no-path instance, derived through the
amended theorem. -/
theorem c6_no_valuation_path_amended_witness :
    valuate { date := 7, valuation := "CHF", edges := [] } "USD" 100
        = .error (ValError.noValuationPath "USD" 7)
    ∧ computeValuationTransactions (some "CHF")
        (fun _ => { atype := AccountType.equity, name := "Equity:Valuation" })
        { date := 7, amounts := [((cashAcc, "USD"), 100)], values := [],
          transactions := [],
          prices := { date := 7, valuation := "CHF", edges := [] } }
      = .panicked ("no valuation found for commodity " ++ "USD") :=
  c6_no_valuation_path_amended { date := 7, valuation := "CHF", edges := [] }
    "USD" 100 (fun _ => { atype := AccountType.equity, name := "Equity:Valuation" })
    cashAcc 100 [] [] 7
    (fun hr => by
      have h12 := reaches_nil "USD" "CHF" hr
      simp at h12)
    (Or.inl rfl)

theorem pvt2Go_spec (valuation : Option Commodity) (vaf : Account → Account)
    (np : NormalizedPrices) (d : Date)
    (hvaf : ∀ a : Account, (vaf a).atype ≠ AccountType.assets
      ∧ (vaf a).atype ≠ AccountType.liabilities) :
    ∀ (entries : List (Posn × ℚ)) (value value0 : AMap) (trxs : List ATransaction),
      (entries.map Prod.fst).Nodup →
      (∀ e ∈ entries, ¬(some e.1.2 = valuation) →
        (e.1.1.atype = AccountType.assets ∨ e.1.1.atype = AccountType.liabilities) →
        mlookup value e.1 = mlookup value0 e.1) →
      (∀ e ∈ entries, ¬(some e.1.2 = valuation) →
        (e.1.1.atype = AccountType.assets ∨ e.1.1.atype = AccountType.liabilities) →
        ∃ v, valuate np e.1.2 e.2 = .ok v) →
      ∃ value', pvt2Go valuation vaf np d entries value trxs
        = .ok (value', trxs ++ entries.filterMap (adjustmentFor valuation vaf np d value0)) := by
  intro entries
  induction entries with
  | nil =>
    intro value value0 trxs _ _ _
    exact ⟨value, by simp [pvt2Go]⟩
  | cons e rest ih =>
    intro value value0 trxs hnd hagree hval
    obtain ⟨pos, va⟩ := e
    rw [List.map_cons, List.nodup_cons] at hnd
    have hagree' := fun e' he' => hagree e' (List.mem_cons_of_mem _ he')
    have hval' := fun e' he' => hval e' (List.mem_cons_of_mem _ he')
    by_cases hskip1 : some pos.2 = valuation
    · obtain ⟨value', hrec⟩ := ih value value0 trxs hnd.2 hagree' hval'
      refine ⟨value', ?_⟩
      rw [pvt2Go, if_pos hskip1, hrec, List.filterMap_cons,
        show adjustmentFor valuation vaf np d value0 (pos, va) = none from by
          rw [adjustmentFor, if_pos hskip1]]
    · by_cases hskip2 : pos.1.atype ≠ AccountType.assets
          ∧ pos.1.atype ≠ AccountType.liabilities
      · obtain ⟨value', hrec⟩ := ih value value0 trxs hnd.2 hagree' hval'
        refine ⟨value', ?_⟩
        rw [pvt2Go, if_neg hskip1, if_pos hskip2, hrec, List.filterMap_cons,
          show adjustmentFor valuation vaf np d value0 (pos, va) = none from by
            rw [adjustmentFor, if_neg hskip1, if_pos hskip2]]
      · have hq2 : pos.1.atype = AccountType.assets
            ∨ pos.1.atype = AccountType.liabilities := by
          by_contra hcon
          push_neg at hcon
          exact hskip2 ⟨hcon.1, hcon.2⟩
        obtain ⟨v, hv⟩ := hval (pos, va) (List.mem_cons_self _ _) hskip1 hq2
        have hlk : mlookup value pos = mlookup value0 pos :=
          hagree (pos, va) (List.mem_cons_self _ _) hskip1 hq2
        by_cases hdiff : v - mlookup value pos = 0
        · obtain ⟨value', hrec⟩ := ih value value0 trxs hnd.2 hagree' hval'
          refine ⟨value', ?_⟩
          rw [pvt2Go, if_neg hskip1, if_neg hskip2, hv]
          simp only [if_pos hdiff]
          rw [hrec, List.filterMap_cons,
            show adjustmentFor valuation vaf np d value0 (pos, va) = none from by
              rw [adjustmentFor, if_neg hskip1, if_neg hskip2, hv]
              simp only [← hlk, if_pos hdiff]]
        · have hagree2 : ∀ e' ∈ rest, ¬(some e'.1.2 = valuation) →
              (e'.1.1.atype = AccountType.assets
                ∨ e'.1.1.atype = AccountType.liabilities) →
              mlookup (bookPair value (vaf pos.1) pos.1 (v - mlookup value pos) pos.2) e'.1
                = mlookup value0 e'.1 := by
            intro e' he' h1 h2
            have hne1 : e'.1 ≠ pos := by
              intro hcontra
              have hm : e'.1 ∈ rest.map Prod.fst := List.mem_map_of_mem Prod.fst he'
              rw [hcontra] at hm
              exact hnd.1 hm
            have hne2 : e'.1 ≠ (vaf pos.1, pos.2) := by
              intro hcontra
              have : e'.1.1 = vaf pos.1 := by rw [hcontra]
              rcases h2 with h2 | h2
              · exact (hvaf pos.1).1 (this ▸ h2)
              · exact (hvaf pos.1).2 (this ▸ h2)
            have hne1' : e'.1 ≠ (pos.1, pos.2) := by
              intro hcontra
              exact hne1 (by rw [hcontra])
            have hbp : mlookup (bookPair value (vaf pos.1) pos.1
                  (v - mlookup value pos) pos.2) e'.1 = mlookup value e'.1 :=
              (mlookup_mupd_ne _ _ _ _ hne1').trans (mlookup_mupd_ne _ _ _ _ hne2)
            rw [hbp]
            exact hagree' e' he' h1 h2
          obtain ⟨value', hrec⟩ := ih
            (bookPair value (vaf pos.1) pos.1 (v - mlookup value pos) pos.2)
            value0
            (trxs ++ [{ date := d
                        description := "Adjust value of " ++ pos.2
                          ++ " in account " ++ pos.1.name
                        postings := [{ credit := vaf pos.1, debit := pos.1,
                                       commodity := pos.2,
                                       amount := v - mlookup value pos,
                                       targets := [pos.2] }] }])
            hnd.2 hagree2 hval'
          refine ⟨value', ?_⟩
          rw [pvt2Go, if_neg hskip1, if_neg hskip2, hv]
          simp only [if_neg hdiff]
          rw [hrec, List.filterMap_cons,
            show adjustmentFor valuation vaf np d value0 (pos, va)
                = some { date := d
                         description := "Adjust value of " ++ pos.2
                           ++ " in account " ++ pos.1.name
                         postings := [{ credit := vaf pos.1, debit := pos.1,
                                        commodity := pos.2,
                                        amount := v - mlookup value pos,
                                        targets := [pos.2] }] } from by
              rw [adjustmentFor, if_neg hskip1, if_neg hskip2, hv]
              simp only [← hlk, if_neg hdiff],
            List.append_assoc, List.singleton_append]

/-- **C5**.  With a valuation commodity configured, the
valuation-adjustment step of `Process2` succeeds (given that every
asset/liability position not in the valuation commodity can be valuated)
and changes only the value map and the day's transaction list: the
amounts, the date and the prices are untouched, and the transaction list
is extended by exactly one same-day adjustment transaction — against the
valuation-adjustment account, sized to the drift between the recomputed
value and the recorded one — per drifting asset or liability position;
positions in the valuation commodity and positions of income, expense or
equity accounts never produce an adjustment. -/
theorem c5_valuation_frame (valuation : Option Commodity) (vaf : Account → Account)
    (d : ADay)
    (hvaf : ∀ a : Account, (vaf a).atype ≠ AccountType.assets
      ∧ (vaf a).atype ≠ AccountType.liabilities)
    (hnd : (d.amounts.map Prod.fst).Nodup)
    (hval : ∀ e ∈ d.amounts, ¬(some e.1.2 = valuation) →
      (e.1.1.atype = AccountType.assets ∨ e.1.1.atype = AccountType.liabilities) →
      ∃ v, valuate d.normalized e.1.2 e.2 = .ok v) :
    ∃ d', processValuationTransactions2 valuation vaf d = .ok d'
      ∧ d'.amounts = d.amounts ∧ d'.date = d.date ∧ d'.normalized = d.normalized
      ∧ d'.transactions = d.transactions
          ++ d.amounts.filterMap
              (adjustmentFor valuation vaf d.normalized d.date d.value) := by
  obtain ⟨value', hrec⟩ := pvt2Go_spec valuation vaf d.normalized d.date hvaf
    d.amounts d.value d.value d.transactions hnd (fun e _ _ _ => rfl) hval
  refine ⟨{ d with value := value', transactions := d.transactions ++ d.amounts.filterMap (adjustmentFor valuation vaf d.normalized d.date d.value) }, ?_, rfl, rfl, rfl, rfl⟩
  rw [processValuationTransactions2, hrec]

/-- **C5** witness: a 100 USD cash position valued at 200 CHF with no
recorded value produces exactly one 200-sized same-day adjustment, and
the amounts map is unchanged. -/
theorem c5_valuation_frame_witness :
    ∃ d', processValuationTransactions2 (some "CHF")
        (fun _ => { atype := AccountType.equity, name := "Equity:Valuation" })
        { date := 9, amounts := [((cashAcc, "USD"), 100)], value := [],
          transactions := [],
          normalized := { date := 9, valuation := "CHF", edges := [("USD", "CHF", 2)] } }
      = .ok d'
      ∧ d'.amounts = [((cashAcc, "USD"), 100)]
      ∧ d'.transactions
          = List.filterMap
              (adjustmentFor (some "CHF")
                (fun _ => { atype := AccountType.equity, name := "Equity:Valuation" })
                { date := 9, valuation := "CHF", edges := [("USD", "CHF", 2)] } 9 [])
              [((cashAcc, "USD"), 100)] := by
  obtain ⟨d', hok, ham, hdate, hnorm, htr⟩ := c5_valuation_frame (some "CHF")
    (fun _ => { atype := AccountType.equity, name := "Equity:Valuation" })
    { date := 9, amounts := [((cashAcc, "USD"), 100)], value := [],
      transactions := [],
      normalized := { date := 9, valuation := "CHF", edges := [("USD", "CHF", 2)] } }
    (fun a => by constructor <;> intro hcontra <;> simp at hcontra)
    (by decide)
    (by
      intro e he h1 h2
      rw [List.mem_singleton] at he
      subst he
      exact ⟨100 * 2, rfl⟩)
  exact ⟨d', hok, ham, by rw [htr]; rfl⟩

end Knut

